import Mathlib

/-!
Verification of the `require-trx-forwarding` lint rule of
`eslint-plugin-objection-trx`.

The rule is a single self-contained module operating on an ESTree syntax
tree.  We shallowly embed the fragment of the tree the rule inspects
(identifiers, `this`, calls, member accesses, optional-chain
wrappers, object literals and their properties, literals) together with the
per-call analysis the rule performs:

* `hasTrxInScope` — the scope resolver (the scope chain is data supplied by
  the host lint engine, per the rule's external interface);
* `resolveRootReceiver` / `looksLikeModelClass` — the chain root resolver
  and the PascalCase heuristic;
* `looksLikeObjectionChain` — the `.transacting()` chain discrimination;
* `isKeyNamed` / `hasTransactionOption` / `isTrxForwarded` — the
  per-shape forwarding contracts;
* `fixFirstArg` / `fixSecondArg` / `fixFetchGraphOption` — the fix
  synthesizers.  The source fixers produce token-anchored text edits; we
  model each edit by its effect on the call's argument list, i.e. the
  argument list of the edited call after reparsing (the inserted text
  `trx` / `, trx` / `, { transaction: trx }` / ` transaction: trx,`
  parses to exactly the nodes recorded here);
* `handleCall` — the `CallExpression` visitor: finalization recording,
  shape dispatch, and finding emission;
* `step` — the traversal events the host delivers (function enter/exit and
  call expressions) driving the finalization stack.
-/

namespace ObjectionTrx

/-- Object-literal members: `Property` nodes (key/value) versus anything
else (e.g. `SpreadElement`), which the rule treats as non-`Property`. -/
inductive ObjMember (α : Type) where
  | property (key : α) (value : α)
  | nonProperty

/-- The fragment of ESTree expression nodes the rule inspects.  `call`
carries its `range[0]` start position, the only node position the rule
reads (`node.range[0]` is read only on `CallExpression` nodes).  `lit`
carries `some s` for string literals (the only literal values the rule
compares, via `isKeyNamed`) and `none` for any other literal.  All node
kinds the rule never distinguishes collapse to `other`. -/
inductive Expr where
  | ident (name : String)
  | thisE
  | call (callee : Expr) (args : List Expr) (pos : Nat)
  | member (obj : Expr) (propName : String) (computed : Bool)
  | chain (e : Expr)
  | objectLit (props : List (ObjMember Expr))
  | lit (strVal : Option String)
  | other

/-- A binding in a scope: its name and the `range[0]` positions of its
declaration sites (`variable.defs[i].node.range[0]`). -/
structure Binding where
  name : String
  defPositions : List Nat
deriving Repr, DecidableEq

/-- A scope of the host's static scope graph: whether `scope.type` is
`"global"`, and its set of bindings (`scope.set`). -/
structure Scope where
  isGlobal : Bool
  bindings : List Binding
deriving Repr, DecidableEq

/-- `scope.set.get("trx")`: the binding named `trx` in a scope, if any. -/
def findTrxBinding (s : Scope) : Option Binding :=
  s.bindings.find? (fun b => b.name == "trx")

/-- `hasTrxInScope` (source lines 275–286): starting from the scope owning
the node, walk outward (`scope.upper`); stop with failure at the global
scope; at the first scope whose `set` contains `trx`, succeed iff some
declaration site precedes the node's position.  The scope chain, innermost
first, is the data the host's `sourceCode.getScope(node)` provides. -/
def hasTrxInScope (pos : Nat) : List Scope → Bool
  | [] => false
  | s :: upper =>
    if s.isGlobal then false
    else
      match findTrxBinding s with
      | some v => v.defPositions.any (fun d => d < pos)
      | none => hasTrxInScope pos upper

/-- `isTrxForwarded` (source lines 167–169): the argument exists and is the
identifier `trx`.  `none` models an absent (`undefined`) argument. -/
def isTrxForwarded (arg : Option Expr) : Bool :=
  match arg with
  | some (.ident n) => n == "trx"
  | _ => false

/-- `/^[A-Z]/.test(name)`: the name starts with an ASCII capital. -/
def startsWithUpper (s : String) : Bool :=
  match s.toList with
  | [] => false
  | c :: _ => c.isUpper

/-- `resolveRootReceiver` (source lines 203–220): unwrap
`ChainExpression` / `CallExpression` (into the callee) /
`MemberExpression` (into the object) until an identifier or
`ThisExpression` is reached; any other node yields no root. -/
def resolveRootReceiver : Expr → Option Expr
  | .ident n => some (.ident n)
  | .thisE => some .thisE
  | .chain e => resolveRootReceiver e
  | .call callee _ _ => resolveRootReceiver callee
  | .member obj _ _ => resolveRootReceiver obj
  | _ => none

/-- `looksLikeModelClass` (source lines 187–193): the chain root exists and
is `this` or a PascalCase identifier. -/
def looksLikeModelClass (objectNode : Expr) : Bool :=
  match resolveRootReceiver objectNode with
  | none => false
  | some .thisE => true
  | some (.ident n) => startsWithUpper n
  | some _ => false

/-- `looksLikeObjectionChain` (source lines 231–258).  The source takes the
`.transacting()` call node and starts its walk at `node.callee.object`;
this definition receives that receiver directly.  While the current node is
a call with a non-computed member callee, recognize `$query` /
`$relatedQuery` / `$fetchGraph`, or `query` on a model-class chain, and
otherwise continue at the callee's object; unwrap `ChainExpression`; stop
with failure on anything else. -/
def looksLikeObjectionChain : Expr → Bool
  | .call (.member obj method false) _ _ =>
    if method == "$query" || method == "$relatedQuery" || method == "$fetchGraph" then
      true
    else if method == "query" && looksLikeModelClass obj then
      true
    else
      looksLikeObjectionChain obj
  | .chain e => looksLikeObjectionChain e
  | _ => false

/-- `isKeyNamed` (source lines 293–297): the key is the identifier `name`
or a literal whose value is the string `name`. -/
def isKeyNamed (key : Expr) (name : String) : Bool :=
  match key with
  | .ident n => n == name
  | .lit (some s) => s == name
  | _ => false

/-- `hasTransactionOption` (source lines 304–321): the second argument
exists and either is not an object literal (assumed correct) or contains a
`Property` whose key is named `transaction` and whose value is `trx`. -/
def hasTransactionOption (args : List Expr) : Bool :=
  match args[1]? with
  | none => false
  | some secondArg =>
    match secondArg with
    | .objectLit props =>
      props.any (fun p =>
        match p with
        | .property k v => isKeyNamed k "transaction" && isTrxForwarded (some v)
        | .nonProperty => false)
    | _ => true

/-- Whether an object literal already has a `Property` keyed `transaction`
(the `secondArg.properties.find` test of `fixFetchGraphOption`, which looks
at the key only, not the value). -/
def hasTxnKeyProp (props : List (ObjMember Expr)) : Bool :=
  props.any (fun p =>
    match p with
    | .property k _ => isKeyNamed k "transaction"
    | .nonProperty => false)

/-- `fixFirstArg` (source lines 328–336): no edit when a first argument
exists; otherwise insert `trx` right after the open parenthesis.  The
edit's effect: the edited call's argument list. -/
def fixFirstArg (args : List Expr) : Option (List Expr) :=
  match args[0]? with
  | some _ => none
  | none => some [.ident "trx"]

/-- `fixSecondArg` (source lines 343–350): no edit when a second argument
exists or no first argument exists; otherwise insert `, trx` after the
first argument. -/
def fixSecondArg (args : List Expr) : Option (List Expr) :=
  match args[1]? with
  | some _ => none
  | none =>
    match args[0]? with
    | none => none
    | some _ => some (args ++ [.ident "trx"])

/-- `fixFetchGraphOption` (source lines 357–380): with no second argument
(and a first one), append `, { transaction: trx }`; with a non-object
second argument, no edit; with an object literal already keyed
`transaction`, no edit; otherwise insert the `transaction: trx` property
before any existing properties (empty literal: replace it by
`{ transaction: trx }` — same resulting object). -/
def fixFetchGraphOption (args : List Expr) : Option (List Expr) :=
  match args[1]? with
  | none =>
    match args[0]? with
    | none => none
    | some _ =>
      some (args ++ [.objectLit [.property (.ident "transaction") (.ident "trx")]])
  | some secondArg =>
    match secondArg with
    | .objectLit props =>
      if hasTxnKeyProp props then none
      else if props.length > 0 then
        some (args.set 1 (.objectLit (.property (.ident "transaction") (.ident "trx") :: props)))
      else
        some (args.set 1 (.objectLit [.property (.ident "transaction") (.ident "trx")]))
    | _ => none

/-- `isAfterTrxFinalized` (source lines 61–68): some recorded position in
some frame of the live function stack precedes the node's position. -/
def isAfterTrxFinalized (pos : Nat) (stack : List (List Nat)) : Bool :=
  stack.any (fun positions => positions.any (fun p => p < pos))

/-- `functionStack[functionStack.length - 1].push(pos)`: append to the
top-of-stack frame (frames are listed top first here). -/
def pushTop (pos : Nat) (stack : List (List Nat)) : List (List Nat) :=
  match stack with
  | [] => []
  | f :: rest => (f ++ [pos]) :: rest

/-- A finding: the report's `messageId`, and the edit produced by its
fixer (`none` when no fixer is attached or the fixer declines). -/
structure Finding where
  messageId : String
  fix : Option (List Expr)

/-- The shape dispatch of the `CallExpression` visitor (source lines
95–154): the `if`/`else if` chain over the accessed property name, each
branch combining the shape's trigger, its forwarding contract, the scope
resolver and the finalization tracker, and reporting with its fixer. -/
def checkShapes (scopes : List Scope) (stack : List (List Nat))
    (obj : Expr) (methodName : String) (args : List Expr) (pos : Nat) :
    List Finding :=
  if methodName == "query" then
    if looksLikeModelClass obj && !isTrxForwarded (args[0]?)
        && hasTrxInScope pos scopes && !isAfterTrxFinalized pos stack then
      [⟨"missingTrxQuery", fixFirstArg args⟩]
    else []
  else if methodName == "$query" then
    if !isTrxForwarded (args[0]?)
        && hasTrxInScope pos scopes && !isAfterTrxFinalized pos stack then
      [⟨"missingTrxInstanceQuery", fixFirstArg args⟩]
    else []
  else if methodName == "$relatedQuery" then
    if !isTrxForwarded (args[1]?)
        && hasTrxInScope pos scopes && !isAfterTrxFinalized pos stack then
      [⟨"missingTrxRelatedQuery", fixSecondArg args⟩]
    else []
  else if methodName == "$fetchGraph" then
    if !hasTransactionOption args
        && hasTrxInScope pos scopes && !isAfterTrxFinalized pos stack then
      [⟨"missingTrxFetchGraph", fixFetchGraphOption args⟩]
    else []
  else if methodName == "transacting" then
    if looksLikeObjectionChain obj
        && hasTrxInScope pos scopes && !isAfterTrxFinalized pos stack then
      [⟨"preferTransactionOption", none⟩]
    else []
  else []

/-- The full `CallExpression` visitor (source lines 78–155): skip calls
whose callee is not a non-computed member access; record
`trx.commit()` / `trx.rollback()` start positions into the top stack frame
(only while a frame is open); then run the shape dispatch.  Returns the
updated finalization stack and the findings reported for this call. -/
def handleCall (scopes : List Scope) (stack : List (List Nat)) (node : Expr) :
    List (List Nat) × List Finding :=
  match node with
  | .call (.member obj methodName false) args pos =>
    let stack' :=
      if (methodName == "commit" || methodName == "rollback")
          && (match obj with | .ident n => n == "trx" | _ => false)
          && !stack.isEmpty then
        pushTop pos stack
      else stack
    (stack', checkShapes scopes stack' obj methodName args pos)
  | _ => (stack, [])

/-- The traversal events the host delivers to the rule's visitor table:
entering/exiting a function body (`FunctionDeclaration`,
`FunctionExpression`, `ArrowFunctionExpression` and their `:exit`
callbacks) and visiting a call expression together with the scope chain
the host resolves at that node. -/
inductive Event where
  | enterFun
  | exitFun
  | callE (scopes : List Scope) (node : Expr)

/-- One traversal step: `enterFunction` pushes an empty frame,
`exitFunction` pops the top frame, and a call expression runs
`handleCall`. -/
def step (stack : List (List Nat)) : Event → List (List Nat) × List Finding
  | .enterFun => ([] :: stack, [])
  | .exitFun => (stack.tail, [])
  | .callE scopes node => handleCall scopes stack node

/-- The hypothesis of the spec sentence "`trx` is declared in an enclosing
non-global scope before the call", read literally: some scope of the chain
is non-global and holds a binding named `trx` with a declaration site
before the call.  Stated from the spec's words, to be compared with the
source's `hasTrxInScope`. -/
def trxDeclaredBeforeCall (pos : Nat) (scopes : List Scope) : Prop :=
  ∃ s ∈ scopes, s.isGlobal = false ∧
    ∃ b ∈ s.bindings, b.name = "trx" ∧ ∃ d ∈ b.defPositions, d < pos

/-! ### Helper lemmas -/

theorem checkShapes_eq_nil_of_noScope (scopes : List Scope)
    (stack : List (List Nat)) (obj : Expr) (m : String) (args : List Expr)
    (pos : Nat) (h : hasTrxInScope pos scopes = false) :
    checkShapes scopes stack obj m args pos = [] := by
  simp only [checkShapes, h, Bool.and_false, Bool.false_and, Bool.and_self,
    if_false, Bool.false_eq_true]
  (repeat' split) <;> rfl

theorem checkShapes_eq_nil_of_finalized (scopes : List Scope)
    (stack : List (List Nat)) (obj : Expr) (m : String) (args : List Expr)
    (pos : Nat) (h : isAfterTrxFinalized pos stack = true) :
    checkShapes scopes stack obj m args pos = [] := by
  simp only [checkShapes, h, Bool.not_true, Bool.and_false, Bool.false_and,
    if_false, Bool.false_eq_true]
  (repeat' split) <;> rfl

theorem isAfterTrxFinalized_pushTop (pos q : Nat) (stack : List (List Nat))
    (h : isAfterTrxFinalized pos stack = true) :
    isAfterTrxFinalized pos (pushTop q stack) = true := by
  cases stack with
  | nil => simpa [pushTop] using h
  | cons f rest =>
    simp only [isAfterTrxFinalized, List.any_eq_true] at h ⊢
    obtain ⟨ps, hmem, p, hp, hlt⟩ := h
    rcases List.mem_cons.mp hmem with hps | hps
    · exact ⟨f ++ [q], List.mem_cons_self _ _,
        p, List.mem_append_left _ (hps ▸ hp), hlt⟩
    · exact ⟨ps, List.mem_cons_of_mem _ hps, p, hp, hlt⟩

theorem handleCall_stack_unchanged (scopes : List Scope)
    (stack : List (List Nat)) (obj : Expr) (m : String) (args : List Expr)
    (pos : Nat) (hc : m ≠ "commit") (hr : m ≠ "rollback") :
    handleCall scopes stack (.call (.member obj m false) args pos) =
      (stack, checkShapes scopes stack obj m args pos) := by
  simp [handleCall, hc, hr]

theorem checkShapes_length_le (scopes : List Scope) (stack : List (List Nat))
    (obj : Expr) (m : String) (args : List Expr) (pos : Nat) :
    (checkShapes scopes stack obj m args pos).length ≤ 1 := by
  unfold checkShapes
  (repeat' split) <;> simp

/-! ### Claims -/

/-- C4: a `.query()` call is classified as the Query shape only when the
chain root is a capitalized identifier or `this`; a `.query()` call on a
lowercase-rooted receiver is never flagged, whatever the scope and
finalization context. -/
theorem c4_root_capitalization :
    (∀ obj : Expr, looksLikeModelClass obj = true ↔
      ((∃ n, resolveRootReceiver obj = some (.ident n) ∧ startsWithUpper n = true)
        ∨ resolveRootReceiver obj = some .thisE))
    ∧ (∀ (obj : Expr) (scopes : List Scope) (stack : List (List Nat))
        (args : List Expr) (pos : Nat), looksLikeModelClass obj = false →
        (handleCall scopes stack (.call (.member obj "query" false) args pos)).2 = [])
    ∧ (∀ (n : String) (scopes : List Scope) (stack : List (List Nat))
        (args : List Expr) (pos : Nat), startsWithUpper n = false →
        (handleCall scopes stack
          (.call (.member (.ident n) "query" false) args pos)).2 = []) := by
  have hiff : ∀ obj : Expr, looksLikeModelClass obj = true ↔
      ((∃ n, resolveRootReceiver obj = some (.ident n) ∧ startsWithUpper n = true)
        ∨ resolveRootReceiver obj = some .thisE) := by
    intro obj
    unfold looksLikeModelClass
    cases hroot : resolveRootReceiver obj with
    | none => simp
    | some root => cases root <;> simp [hroot]
  have hnone : ∀ (obj : Expr) (scopes : List Scope) (stack : List (List Nat))
      (args : List Expr) (pos : Nat), looksLikeModelClass obj = false →
      (handleCall scopes stack (.call (.member obj "query" false) args pos)).2 = [] := by
    intro obj scopes stack args pos h
    simp [handleCall, checkShapes, h]
  refine ⟨hiff, hnone, ?_⟩
  intro n scopes stack args pos h
  apply hnone
  simp [looksLikeModelClass, resolveRootReceiver, h]

/-- C4 witness: `connection.query(...)` (lowercase root) produces no
finding even with `trx` reachable. -/
theorem c4_root_capitalization_witness :
    (handleCall [⟨false, [⟨"trx", [0]⟩]⟩] [[]]
      (.call (.member (.ident "connection") "query" false)
        [.lit (some "SELECT 1")] 5)).2 = [] :=
  c4_root_capitalization.2.2 "connection" _ _ _ _ (by decide)

/-- C5: the FetchGraph forwarding contract — `hasTransactionOption` fails
when the second argument is absent; holds when the second argument is not
an object literal; and on an object literal holds exactly when some
`Property` is keyed `transaction` with value `trx`. -/
theorem c5_fetchgraph_contract :
    (∀ args : List Expr, args[1]? = none → hasTransactionOption args = false)
    ∧ (∀ (args : List Expr) (s : Expr), args[1]? = some s →
        (∀ props, s ≠ .objectLit props) → hasTransactionOption args = true)
    ∧ (∀ (args : List Expr) (props : List (ObjMember Expr)),
        args[1]? = some (.objectLit props) →
        (hasTransactionOption args = true ↔
          ∃ k v, ObjMember.property k v ∈ props ∧
            isKeyNamed k "transaction" = true ∧ isTrxForwarded (some v) = true)) := by
  refine ⟨?_, ?_, ?_⟩
  · intro args h; simp [hasTransactionOption, h]
  · intro args s h hno
    cases s with
    | objectLit props => exact absurd rfl (hno props)
    | ident n => simp [hasTransactionOption, h]
    | thisE => simp [hasTransactionOption, h]
    | call c a p => simp [hasTransactionOption, h]
    | member o pn c => simp [hasTransactionOption, h]
    | chain e => simp [hasTransactionOption, h]
    | lit v => simp [hasTransactionOption, h]
    | other => simp [hasTransactionOption, h]
  · intro args props h
    simp only [hasTransactionOption, h, List.any_eq_true]
    constructor
    · rintro ⟨p, hmem, hp⟩
      cases p with
      | property k v =>
        simp only [Bool.and_eq_true] at hp
        exact ⟨k, v, hmem, hp.1, hp.2⟩
      | nonProperty => simp at hp
    · rintro ⟨k, v, hmem, hk, hv⟩
      exact ⟨.property k v, hmem, by simp [hk, hv]⟩

/-- C5 witness: with no second argument the contract fails. -/
theorem c5_fetchgraph_contract_witness :
    hasTransactionOption [.ident "expr"] = false :=
  c5_fetchgraph_contract.1 [.ident "expr"] rfl

/-- C9: at most one finding is emitted per visited call expression. -/
theorem c9_at_most_one_finding (scopes : List Scope)
    (stack : List (List Nat)) (node : Expr) :
    (handleCall scopes stack node).2.length ≤ 1 := by
  cases node with
  | call callee args pos =>
    cases callee with
    | member obj m computed =>
      cases computed with
      | false =>
        simp only [handleCall]
        exact checkShapes_length_le ..
      | true => simp [handleCall]
    | ident n => simp [handleCall]
    | thisE => simp [handleCall]
    | call c a p => simp [handleCall]
    | chain e => simp [handleCall]
    | objectLit props => simp [handleCall]
    | lit v => simp [handleCall]
    | other => simp [handleCall]
  | ident n => simp [handleCall]
  | thisE => simp [handleCall]
  | member o pn c => simp [handleCall]
  | chain e => simp [handleCall]
  | objectLit props => simp [handleCall]
  | lit v => simp [handleCall]
  | other => simp [handleCall]

theorem fixFirstArg_eq_some (args r : List Expr)
    (h : fixFirstArg args = some r) : args = [] ∧ r = [.ident "trx"] := by
  cases args with
  | nil => exact ⟨rfl, by simpa [fixFirstArg] using h.symm⟩
  | cons a as => simp [fixFirstArg] at h

theorem fixSecondArg_eq_some (args r : List Expr)
    (h : fixSecondArg args = some r) :
    (∃ a, args = [a]) ∧ r = args ++ [.ident "trx"] := by
  match args with
  | [] => simp [fixSecondArg] at h
  | [a] =>
    refine ⟨⟨a, rfl⟩, ?_⟩
    simpa [fixSecondArg] using h.symm
  | a :: b :: rest => simp [fixSecondArg] at h

theorem fixFetchGraphOption_eq_some (args r : List Expr)
    (h : fixFetchGraphOption args = some r) :
    ((∃ a, args = [a]) ∧
      r = args ++ [.objectLit [.property (.ident "transaction") (.ident "trx")]])
    ∨ (∃ props, args[1]? = some (.objectLit props) ∧ hasTxnKeyProp props = false ∧
        r = args.set 1
          (.objectLit (.property (.ident "transaction") (.ident "trx") :: props))) := by
  match args with
  | [] => simp [fixFetchGraphOption] at h
  | [a] =>
    left
    refine ⟨⟨a, rfl⟩, ?_⟩
    simpa [fixFetchGraphOption] using h.symm
  | a :: s :: rest =>
    right
    cases s with
    | objectLit props =>
      by_cases hk : hasTxnKeyProp props = true
      · simp [fixFetchGraphOption, hk] at h
      · refine ⟨props, by simp, by simpa using hk, ?_⟩
        cases props with
        | nil => simpa [fixFetchGraphOption, hk] using h.symm
        | cons p ps => simpa [fixFetchGraphOption, hk] using h.symm
    | ident n => simp [fixFetchGraphOption] at h
    | thisE => simp [fixFetchGraphOption] at h
    | call c al p => simp [fixFetchGraphOption] at h
    | member o pn c => simp [fixFetchGraphOption] at h
    | chain e => simp [fixFetchGraphOption] at h
    | lit v => simp [fixFetchGraphOption] at h
    | other => simp [fixFetchGraphOption] at h

theorem hasTransactionOption_after_fix (args r : List Expr)
    (h : fixFetchGraphOption args = some r) : hasTransactionOption r = true := by
  rcases fixFetchGraphOption_eq_some args r h with ⟨⟨a, ha⟩, hr⟩ | ⟨props, hp, -, hr⟩
  · subst ha; subst hr
    simp [hasTransactionOption, isKeyNamed, isTrxForwarded]
  · cases args with
    | nil => simp at hp
    | cons a0 tl =>
      cases tl with
      | nil => simp at hp
      | cons s rest =>
        have hs : s = Expr.objectLit props := by simpa using hp
        subst hs
        subst hr
        simp [hasTransactionOption, isKeyNamed, isTrxForwarded]

/-- C6: a `.transacting()` call is flagged exactly when its receiver chain
passes through a recognized Objection query call and `trx` is reachable and
the call is not post-finalization, and the finding carries no fix; a
`.transacting()` on a raw knex builder chain is not an Objection chain,
while a model `query` chain is. -/
theorem c6_transacting_discrimination :
    (∀ (scopes : List Scope) (stack : List (List Nat)) (obj : Expr)
        (args : List Expr) (pos : Nat),
      (handleCall scopes stack
          (.call (.member obj "transacting" false) args pos)).2 =
        if looksLikeObjectionChain obj && hasTrxInScope pos scopes
            && !isAfterTrxFinalized pos stack then
          [⟨"preferTransactionOption", none⟩]
        else [])
    ∧ looksLikeObjectionChain
        (.call (.member (.call (.ident "knex") [.lit (some "table")] 0) "where" false)
          [.lit (some "id"), .lit none] 1) = false
    ∧ looksLikeObjectionChain
        (.call (.member (.ident "Model") "query" false) [.ident "trx"] 0) = true := by
  refine ⟨?_, rfl, rfl⟩
  intro scopes stack obj args pos
  simp [handleCall, checkShapes]

/-- C7: each fixer declines whenever the slot it targets is already
populated, and every produced edit only appends the forwarding argument or
prepends the `transaction: trx` property, keeping every existing argument
and property. -/
theorem c7_nondestructive :
    (∀ (args : List Expr) (a : Expr), args[0]? = some a → fixFirstArg args = none)
    ∧ (∀ (args r : List Expr), fixFirstArg args = some r →
        args = [] ∧ r = [.ident "trx"])
    ∧ (∀ (args : List Expr) (b : Expr), args[1]? = some b → fixSecondArg args = none)
    ∧ (∀ (args r : List Expr), fixSecondArg args = some r →
        r = args ++ [.ident "trx"])
    ∧ (∀ (args : List Expr) (props : List (ObjMember Expr)),
        args[1]? = some (.objectLit props) → hasTxnKeyProp props = true →
        fixFetchGraphOption args = none)
    ∧ (∀ (args r : List Expr), fixFetchGraphOption args = some r →
        (args[1]? = none ∧
          r = args ++ [.objectLit [.property (.ident "transaction") (.ident "trx")]])
        ∨ (∃ props, args[1]? = some (.objectLit props) ∧ hasTxnKeyProp props = false ∧
            r = args.set 1
              (.objectLit (.property (.ident "transaction") (.ident "trx") :: props)))) := by
  refine ⟨?_, fun args r h => fixFirstArg_eq_some args r h, ?_,
    fun args r h => (fixSecondArg_eq_some args r h).2, ?_, ?_⟩
  · intro args a h; simp [fixFirstArg, h]
  · intro args b h; simp [fixSecondArg, h]
  · intro args props h hk; simp [fixFetchGraphOption, h, hk]
  · intro args r h
    rcases fixFetchGraphOption_eq_some args r h with ⟨⟨a, ha⟩, hr⟩ | hright
    · subst ha; exact Or.inl ⟨rfl, hr⟩
    · exact Or.inr hright

/-- C7 witness: populated slots produce no edit. -/
theorem c7_nondestructive_witness :
    fixFirstArg [.ident "knex"] = none
    ∧ fixSecondArg [.lit (some "tags"), .ident "otherTx"] = none
    ∧ fixFetchGraphOption [.ident "expr",
        .objectLit [.property (.ident "transaction") (.ident "otherTx")]] = none :=
  ⟨c7_nondestructive.1 _ _ rfl,
   c7_nondestructive.2.2.1 _ _ rfl,
   c7_nondestructive.2.2.2.2.1 _ _ rfl rfl⟩

/-- C10: a string-literal `"transaction"` key is treated like the
identifier key — it satisfies the FetchGraph contract (no finding) when its
value is `trx`, and its mere presence (any value) suppresses the
property-insertion edit. -/
theorem c10_string_literal_key :
    (∀ (args : List Expr) (props : List (ObjMember Expr)),
      args[1]? = some (.objectLit props) →
      ObjMember.property (.lit (some "transaction")) (.ident "trx") ∈ props →
      hasTransactionOption args = true ∧
        ∀ (scopes : List Scope) (stack : List (List Nat)) (obj : Expr) (pos : Nat),
          (handleCall scopes stack
            (.call (.member obj "$fetchGraph" false) args pos)).2 = [])
    ∧ (∀ (args : List Expr) (props : List (ObjMember Expr)) (v : Expr),
        args[1]? = some (.objectLit props) →
        ObjMember.property (.lit (some "transaction")) v ∈ props →
        fixFetchGraphOption args = none) := by
  constructor
  · intro args props h1 hmem
    have hopt : hasTransactionOption args = true := by
      simp only [hasTransactionOption, h1, List.any_eq_true]
      exact ⟨_, hmem, by simp [isKeyNamed, isTrxForwarded]⟩
    refine ⟨hopt, ?_⟩
    intro scopes stack obj pos
    simp [handleCall, checkShapes, hopt]
  · intro args props v h1 hmem
    have hk : hasTxnKeyProp props = true :=
      List.any_eq_true.mpr ⟨_, hmem, by simp [isKeyNamed]⟩
    simp [fixFetchGraphOption, h1, hk]

/-- C10 witness: a `{ "transaction": trx }` option satisfies the contract
and an existing string-keyed `transaction` property suppresses the edit. -/
theorem c10_string_literal_key_witness :
    hasTransactionOption [.ident "expr",
      .objectLit [.property (.lit (some "transaction")) (.ident "trx")]] = true
    ∧ fixFetchGraphOption [.ident "expr",
        .objectLit [.property (.lit (some "transaction")) (.ident "otherTx")]] = none :=
  ⟨(c10_string_literal_key.1 _ _ rfl (by simp)).1,
   c10_string_literal_key.2 _ _ (.ident "otherTx") rfl (by simp)⟩

theorem hasTrxInScope_globalOnly (pos : Nat) (scopes : List Scope)
    (h : ∀ s ∈ scopes, s.isGlobal = false → findTrxBinding s = none) :
    hasTrxInScope pos scopes = false := by
  induction scopes with
  | nil => rfl
  | cons s rest ih =>
    by_cases hg : s.isGlobal = true
    · simp [hasTrxInScope, hg]
    · have hgf : s.isGlobal = false := by simpa using hg
      have hfind : findTrxBinding s = none := h s (by simp) hgf
      simp only [hasTrxInScope, hgf, if_false, hfind, Bool.false_eq_true]
      exact ih (fun t ht hgt => h t (List.mem_cons_of_mem _ ht) hgt)

/-- C1 counterexample: a call of the Query shape with the contract unmet,
`trx` declared in an enclosing non-global scope before the call (in the
outer scope, at position 1 < 5), and no finalization recorded — yet no
finding is produced, because the innermost scope also holds a `trx`
binding whose only declaration site (position 10) follows the call, and
the scope resolver decides at that scope. -/
theorem c1_flagging_counterexample :
    looksLikeModelClass (.ident "Model") = true
    ∧ isTrxForwarded (([] : List Expr))[0]? = false
    ∧ trxDeclaredBeforeCall 5
        [⟨false, [⟨"trx", [10]⟩]⟩, ⟨false, [⟨"trx", [1]⟩]⟩, ⟨true, []⟩]
    ∧ isAfterTrxFinalized 5 [[]] = false
    ∧ (handleCall [⟨false, [⟨"trx", [10]⟩]⟩, ⟨false, [⟨"trx", [1]⟩]⟩, ⟨true, []⟩]
        [[]] (.call (.member (.ident "Model") "query" false) [] 5)).2 = [] := by
  refine ⟨rfl, rfl, ?_, rfl, rfl⟩
  exact ⟨⟨false, [⟨"trx", [1]⟩]⟩, by simp, rfl, ⟨"trx", [1]⟩, by simp, rfl,
    1, by simp, by norm_num⟩

/-- C1 (amended): whenever a call matches one of the five tracked shapes
with its forwarding contract unmet, the scope resolver reports `trx`
reachable (the innermost enclosing non-global scope holding a `trx`
binding has a declaration site before the call, stopping before the global
scope), and no recorded finalization position precedes the call, a finding
is produced. -/
theorem c1_flagging (scopes : List Scope) (stack : List (List Nat))
    (obj : Expr) (m : String) (args : List Expr) (pos : Nat)
    (hshape :
      (m = "query" ∧ looksLikeModelClass obj = true
        ∧ isTrxForwarded args[0]? = false)
      ∨ (m = "$query" ∧ isTrxForwarded args[0]? = false)
      ∨ (m = "$relatedQuery" ∧ isTrxForwarded args[1]? = false)
      ∨ (m = "$fetchGraph" ∧ hasTransactionOption args = false)
      ∨ (m = "transacting" ∧ looksLikeObjectionChain obj = true))
    (hscope : hasTrxInScope pos scopes = true)
    (hfin : isAfterTrxFinalized pos stack = false) :
    (handleCall scopes stack (.call (.member obj m false) args pos)).2 ≠ [] := by
  rcases hshape with ⟨hm, h1, h2⟩ | ⟨hm, h1⟩ | ⟨hm, h1⟩ | ⟨hm, h1⟩ | ⟨hm, h1⟩
  · subst hm; simp [handleCall, checkShapes, h1, h2, hscope, hfin]
  · subst hm; simp [handleCall, checkShapes, h1, hscope, hfin]
  · subst hm; simp [handleCall, checkShapes, h1, hscope, hfin]
  · subst hm; simp [handleCall, checkShapes, h1, hscope, hfin]
  · subst hm; simp [handleCall, checkShapes, h1, hscope, hfin]

/-- C1 witness for the amended statement: `Model.query()` with `trx` bound
at position 0 and no finalization yields a finding. -/
theorem c1_flagging_witness :
    (handleCall [⟨false, [⟨"trx", [0]⟩]⟩] []
      (.call (.member (.ident "Model") "query" false) [] 5)).2 ≠ [] :=
  c1_flagging _ _ _ _ _ _ (Or.inl ⟨rfl, rfl, rfl⟩) rfl rfl

/-- C2: the scope resolver succeeds exactly when, walking outward and
stopping at (and excluding) the global scope, the first scope holding a
`trx` binding is non-global and has a declaration site strictly before the
call (all scopes walked past are non-global and hold no `trx` binding);
and with `trx` bound only in the global scope, no call ever yields a
finding. -/
theorem c2_scope_resolution :
    (∀ (pos : Nat) (scopes : List Scope),
      hasTrxInScope pos scopes = true ↔
        ∃ pre s post, scopes = pre ++ s :: post ∧
          (∀ t ∈ pre, t.isGlobal = false ∧ findTrxBinding t = none) ∧
          s.isGlobal = false ∧
          ∃ b, findTrxBinding s = some b ∧ ∃ d ∈ b.defPositions, d < pos)
    ∧ (∀ scopes : List Scope,
        (∀ s ∈ scopes, s.isGlobal = false → findTrxBinding s = none) →
        ∀ (stack : List (List Nat)) (node : Expr),
          (handleCall scopes stack node).2 = []) := by
  constructor
  · intro pos scopes
    induction scopes with
    | nil =>
      constructor
      · intro h; simp [hasTrxInScope] at h
      · rintro ⟨pre, s, post, heq, -⟩
        cases pre <;> simp at heq
    | cons s rest ih =>
      by_cases hg : s.isGlobal = true
      · constructor
        · intro h; simp [hasTrxInScope, hg] at h
        · rintro ⟨pre, s', post, heq, hpre, hglob, -⟩
          cases pre with
          | nil =>
            injection heq with h1 h2
            rw [h1] at hg
            exact absurd hglob (by simp [hg])
          | cons t ts =>
            injection heq with h1 h2
            have := (hpre t (by simp)).1
            rw [← h1] at this
            exact absurd this (by simp [hg])
      · have hgf : s.isGlobal = false := by simpa using hg
        cases hb : findTrxBinding s with
        | some b =>
          have hL : hasTrxInScope pos (s :: rest)
              = b.defPositions.any (fun d => d < pos) := by
            simp [hasTrxInScope, hgf, hb]
          rw [hL]
          constructor
          · intro h
            obtain ⟨d, hd, hlt⟩ := List.any_eq_true.mp h
            exact ⟨[], s, rest, rfl, by simp, hgf, b, hb, d, hd, by simpa using hlt⟩
          · rintro ⟨pre, s', post, heq, hpre, hglob, b', hb', d, hd, hlt⟩
            cases pre with
            | nil =>
              injection heq with h1 h2
              rw [← h1, hb] at hb'
              injection hb' with h3
              subst h3
              exact List.any_eq_true.mpr ⟨d, hd, by simpa using hlt⟩
            | cons t ts =>
              injection heq with h1 h2
              have := (hpre t (by simp)).2
              rw [← h1, hb] at this
              cases this
        | none =>
          have hL : hasTrxInScope pos (s :: rest) = hasTrxInScope pos rest := by
            simp [hasTrxInScope, hgf, hb]
          rw [hL, ih]
          constructor
          · rintro ⟨pre, s', post, heq, hpre, hglob, hbd⟩
            refine ⟨s :: pre, s', post, by simp [heq], ?_, hglob, hbd⟩
            intro t ht
            rcases List.mem_cons.mp ht with h1 | h1
            · subst h1; exact ⟨hgf, hb⟩
            · exact hpre t h1
          · rintro ⟨pre, s', post, heq, hpre, hglob, hbd⟩
            cases pre with
            | nil =>
              injection heq with h1 h2
              obtain ⟨b', hb', -⟩ := hbd
              rw [← h1, hb] at hb'
              cases hb'
            | cons t ts =>
              injection heq with h1 h2
              exact ⟨ts, s', post, h2,
                fun u hu => hpre u (List.mem_cons_of_mem _ hu), hglob, hbd⟩
  · intro scopes h stack node
    have hfalse : ∀ pos, hasTrxInScope pos scopes = false :=
      fun pos => hasTrxInScope_globalOnly pos scopes h
    cases node with
    | call callee args pos =>
      cases callee with
      | member obj m computed =>
        cases computed with
        | false =>
          show checkShapes scopes _ obj m args pos = []
          exact checkShapes_eq_nil_of_noScope _ _ _ _ _ _ (hfalse pos)
        | true => simp [handleCall]
      | ident n => simp [handleCall]
      | thisE => simp [handleCall]
      | call c a p => simp [handleCall]
      | chain e => simp [handleCall]
      | objectLit props => simp [handleCall]
      | lit v => simp [handleCall]
      | other => simp [handleCall]
    | ident n => simp [handleCall]
    | thisE => simp [handleCall]
    | member o pn c => simp [handleCall]
    | chain e => simp [handleCall]
    | objectLit props => simp [handleCall]
    | lit v => simp [handleCall]
    | other => simp [handleCall]

/-- C2 witness: with `trx` declared only in the global scope no finding is
produced, and the resolver accepts a chain whose innermost scope declares
`trx` before the call. -/
theorem c2_scope_resolution_witness :
    (handleCall [⟨false, []⟩, ⟨true, [⟨"trx", [0]⟩]⟩] [[]]
      (.call (.member (.ident "Model") "query" false) [] 5)).2 = []
    ∧ hasTrxInScope 5 [⟨false, [⟨"trx", [2]⟩]⟩] = true :=
  ⟨c2_scope_resolution.2 _ (by decide) _ _,
   (c2_scope_resolution.1 5 _).mpr
     ⟨[], ⟨false, [⟨"trx", [2]⟩]⟩, [], rfl, by simp, rfl,
      ⟨"trx", [2]⟩, rfl, 2, by simp, by norm_num⟩⟩

/-- C3: a call strictly after a recorded `trx.commit()` / `trx.rollback()`
position in any live frame yields no finding; finalization positions are
recorded only while a frame is open, by appending to the top frame; and
exiting a function discards its frame. -/
theorem c3_finalization_suppression :
    (∀ (scopes : List Scope) (stack : List (List Nat)) (callee : Expr)
        (args : List Expr) (pos : Nat),
      isAfterTrxFinalized pos stack = true →
      (handleCall scopes stack (.call callee args pos)).2 = [])
    ∧ (∀ (scopes : List Scope) (m : String) (args : List Expr) (pos : Nat),
        m = "commit" ∨ m = "rollback" →
        (handleCall scopes []
          (.call (.member (.ident "trx") m false) args pos)).1 = [])
    ∧ (∀ (scopes : List Scope) (f : List Nat) (rest : List (List Nat))
        (m : String) (args : List Expr) (pos : Nat),
        m = "commit" ∨ m = "rollback" →
        (handleCall scopes (f :: rest)
          (.call (.member (.ident "trx") m false) args pos)).1
          = (f ++ [pos]) :: rest)
    ∧ (∀ stack : List (List Nat), step stack .exitFun = (stack.tail, []))
    ∧ (∀ stack : List (List Nat), step stack .enterFun = ([] :: stack, [])) := by
  refine ⟨?_, ?_, ?_, fun _ => rfl, fun _ => rfl⟩
  · intro scopes stack callee args pos h
    cases callee with
    | member obj m computed =>
      cases computed with
      | false =>
        show checkShapes scopes _ obj m args pos = []
        apply checkShapes_eq_nil_of_finalized
        split
        · exact isAfterTrxFinalized_pushTop _ _ _ h
        · exact h
      | true => simp [handleCall]
    | ident n => simp [handleCall]
    | thisE => simp [handleCall]
    | call c a p => simp [handleCall]
    | chain e => simp [handleCall]
    | objectLit props => simp [handleCall]
    | lit v => simp [handleCall]
    | other => simp [handleCall]
  · rintro scopes m args pos (rfl | rfl) <;> simp [handleCall]
  · rintro scopes f rest m args pos (rfl | rfl) <;> simp [handleCall, pushTop]

/-- C3 witness: a Query-shape call after a recorded finalization at
position 2 yields no finding, and a `trx.commit()` with one open frame
appends its position to that frame. -/
theorem c3_finalization_suppression_witness :
    (handleCall [⟨false, [⟨"trx", [0]⟩]⟩] [[2]]
      (.call (.member (.ident "Model") "query" false) [] 5)).2 = []
    ∧ (handleCall [] [[]]
        (.call (.member (.ident "trx") "commit" false) [] 7)).1 = [[7]] :=
  ⟨c3_finalization_suppression.1 _ _ _ _ _ rfl,
   c3_finalization_suppression.2.2.1 [] [] [] "commit" [] 7 (Or.inl rfl)⟩

/-- C8: when a call is reported with an edit, re-running the analysis on
the edited call — same scope chain and finalization stack, since the
insertion happens inside the call and preserves every position ordering the
analysis reads — yields no finding for that call. -/
theorem c8_fix_idempotent (scopes : List Scope) (stack : List (List Nat))
    (obj : Expr) (m : String) (args : List Expr) (pos : Nat) (f : Finding)
    (r : List Expr)
    (hrep : (handleCall scopes stack
      (.call (.member obj m false) args pos)).2 = [f])
    (hfix : f.fix = some r) :
    (handleCall scopes stack (.call (.member obj m false) r pos)).2 = [] := by
  rcases eq_or_ne m "query" with rfl | hq
  · simp [handleCall, checkShapes] at hrep
    split at hrep
    · have hf : f = ⟨"missingTrxQuery", fixFirstArg args⟩ := by
        simpa using hrep.symm
      have hsome : fixFirstArg args = some r := by rw [hf] at hfix; exact hfix
      obtain ⟨ha, hr⟩ := fixFirstArg_eq_some _ _ hsome
      subst hr
      simp [handleCall, checkShapes, isTrxForwarded]
    · simp at hrep
  rcases eq_or_ne m "$query" with rfl | hiq
  · simp [handleCall, checkShapes] at hrep
    split at hrep
    · have hf : f = ⟨"missingTrxInstanceQuery", fixFirstArg args⟩ := by
        simpa using hrep.symm
      have hsome : fixFirstArg args = some r := by rw [hf] at hfix; exact hfix
      obtain ⟨ha, hr⟩ := fixFirstArg_eq_some _ _ hsome
      subst hr
      simp [handleCall, checkShapes, isTrxForwarded]
    · simp at hrep
  rcases eq_or_ne m "$relatedQuery" with rfl | hrq
  · simp [handleCall, checkShapes] at hrep
    split at hrep
    · have hf : f = ⟨"missingTrxRelatedQuery", fixSecondArg args⟩ := by
        simpa using hrep.symm
      have hsome : fixSecondArg args = some r := by rw [hf] at hfix; exact hfix
      obtain ⟨⟨a, ha⟩, hr⟩ := fixSecondArg_eq_some _ _ hsome
      subst ha
      subst hr
      simp [handleCall, checkShapes, isTrxForwarded]
    · simp at hrep
  rcases eq_or_ne m "$fetchGraph" with rfl | hfg
  · simp [handleCall, checkShapes] at hrep
    split at hrep
    · have hf : f = ⟨"missingTrxFetchGraph", fixFetchGraphOption args⟩ := by
        simpa using hrep.symm
      have hsome : fixFetchGraphOption args = some r := by
        rw [hf] at hfix; exact hfix
      have hopt : hasTransactionOption r = true :=
        hasTransactionOption_after_fix _ _ hsome
      simp [handleCall, checkShapes, hopt]
    · simp at hrep
  rcases eq_or_ne m "transacting" with rfl | htr
  · simp [handleCall, checkShapes] at hrep
    split at hrep
    · have hf : f = ⟨"preferTransactionOption", none⟩ := by
        simpa using hrep.symm
      rw [hf] at hfix
      cases hfix
    · simp at hrep
  · simp [handleCall, checkShapes, hq, hiq, hrq, hfg, htr] at hrep

/-- C8 witness: `item.$query()` with `trx` reachable is reported with the
edit inserting `trx`, and the edited call `item.$query(trx)` yields no
finding. -/
theorem c8_fix_idempotent_witness :
    (handleCall [⟨false, [⟨"trx", [0]⟩]⟩] []
      (.call (.member (.ident "item") "$query" false) [.ident "trx"] 5)).2 = [] :=
  c8_fix_idempotent [⟨false, [⟨"trx", [0]⟩]⟩] [] (.ident "item") "$query" [] 5
    ⟨"missingTrxInstanceQuery", some [.ident "trx"]⟩ [.ident "trx"] rfl rfl

end ObjectionTrx
